import Mathlib

/-!
Verification of the vault import/restore engine of the `d_drive_app`
repository (screens `app/(tabs)/FileManagerScreen.tsx` and
`app/media-viewer.tsx`), against its natural-language specification.

Strings are modelled as `List Char` at the algorithmic level, with `String`
wrappers where the source manipulates JS strings.  File trees are modelled
as finite labelled trees; the asynchronous Expo `FileSystem` /
`StorageAccessFramework` calls are modelled as pure operations on those
trees, with exceptions modelled as `Option String` error components and
progress callbacks modelled as accumulated message lists.
-/

/-! ### Name sanitization

Source (identical in both screens, e.g. `FileManagerScreen.tsx:389-391`):

  let sanitizedItemName = itemName.replace(/:/g, '_');
  sanitizedItemName = sanitizedItemName.replace(/[^a-zA-Z0-9._\-\s]/g, '_');
  sanitizedItemName = sanitizedItemName.replace(/\s+/g, ' ').trim();
-/

/-- The character class matched by the JavaScript regex `\s` (and trimmed by
`String.prototype.trim`): space, tab, LF, VT, FF, CR, NBSP, the Unicode
space separators, the line/paragraph separators, and the BOM. -/
def isJsWs (c : Char) : Bool :=
  c = ' ' || c = '\t' || c = '\n' || c = '\x0b' || c = '\x0c' || c = '\r' ||
  c = '\u00A0' || c = '\u1680' || ('\u2000' ≤ c && c ≤ '\u200A') ||
  c = '\u2028' || c = '\u2029' || c = '\u202F' || c = '\u205F' ||
  c = '\u3000' || c = '\uFEFF'

/-- Characters kept (not turned into `_`) by the source's second replace:
the JS regex negated class `[^a-zA-Z0-9._\-\s]`. -/
def allowedKeep (c : Char) : Bool :=
  c.isAlpha || c.isDigit || c = '.' || c = '_' || c = '-' || isJsWs c

/-- First replace of the source: `.replace(/:/g, '_')`. -/
def step1 (l : List Char) : List Char :=
  l.map (fun c => if c = ':' then '_' else c)

/-- Second replace of the source: `.replace(/[^a-zA-Z0-9._\-\s]/g, '_')`. -/
def step2 (l : List Char) : List Char :=
  l.map (fun c => if allowedKeep c then c else '_')


/-- `.replace(/\s+/g, ' ')`: every maximal run of JS whitespace becomes one
space.  The flag records whether the previous character was whitespace
(i.e. whether the single `' '` for the current run was already emitted). -/
def collapseAux : Bool → List Char → List Char
  | _, [] => []
  | true, c :: rest =>
    if isJsWs c then collapseAux true rest else c :: collapseAux false rest
  | false, c :: rest =>
    if isJsWs c then ' ' :: collapseAux true rest else c :: collapseAux false rest

/-- Left half of `.trim()`. -/
def trimL (l : List Char) : List Char := l.dropWhile isJsWs

/-- Right half of `.trim()`: drop trailing JS whitespace. -/
def trimR : List Char → List Char
  | [] => []
  | c :: rest =>
    match trimR rest with
    | [] => if isJsWs c then [] else [c]
    | d :: r => c :: d :: r

/-- The source's three-line sanitizer on character lists. -/
def sanitizeL (l : List Char) : List Char :=
  trimR (trimL (collapseAux false (step2 (step1 l))))

/-- The source's sanitizer on strings. -/
def sanitize (s : String) : String := String.mk (sanitizeL s.data)

/-- The per-item use of the sanitizer: the source skips an item whose name
is empty after sanitization (`if (!sanitizedItemName.trim()) ... return`,
`FileManagerScreen.tsx:393-397`), so the sanitizer acts as a fallible
function. -/
def sanitizeOpt (s : String) : Option String :=
  let r := sanitize s
  if r = "" then none else some r

/-- Modelled from the spec (§4.1), for comparison with the source: the
spec's four-step algorithm, whose step (2) keeps only alphanumerics, `.`,
`_`, `-`, and **a space** — not other whitespace. -/
def specAllowed (c : Char) : Bool :=
  c.isAlpha || c.isDigit || c = '.' || c = '_' || c = '-' || c = ' '

/-- Modelled from the spec (§4.1): steps (1) replace `:`, (2) replace
everything outside `specAllowed`, (3) collapse consecutive whitespace to
one space, (4) trim. -/
def sanitizeSpecAlg (s : String) : String :=
  String.mk (trimR (trimL (collapseAux false
    ((step1 s.data).map (fun c => if specAllowed c then c else '_')))))

/-- The amended description of the implemented sanitizer: the same four
steps, but step (2) keeps every whitespace character (the JS class `\s`),
not only the plain space. -/
def sanitizeAmendedAlg (s : String) : String :=
  String.mk (trimR (trimL (collapseAux false
    ((step1 s.data).map (fun c => if allowedKeep c then c else '_')))))

/-! #### Sanitizer laws -/

/-- Head-of-list whitespace test (`headIsWs [] = false`). -/
def headIsWs : List Char → Bool
  | [] => false
  | c :: _ => isJsWs c

/-- No two adjacent characters are both JS whitespace. -/
def noTwoWs : List Char → Bool
  | [] => true
  | c :: rest => (!(isJsWs c && headIsWs rest)) && noTwoWs rest

theorem trimR_cons (c : Char) (rest : List Char) :
    trimR (c :: rest) =
      match trimR rest with
      | [] => if isJsWs c then [] else [c]
      | d :: r => c :: d :: r := rfl

theorem collapseAux_ws_space : ∀ (b : Bool) (l : List Char) (a : Char),
    a ∈ collapseAux b l → isJsWs a = true → a = ' ' := by
  intro b l
  induction l generalizing b with
  | nil => intro a h; cases b <;> simp [collapseAux] at h
  | cons c rest ih =>
    intro a h hws
    by_cases hc : isJsWs c = true
    · cases b with
      | true =>
        simp only [collapseAux, hc, if_true] at h
        exact ih true a h hws
      | false =>
        simp only [collapseAux, hc, if_true, List.mem_cons] at h
        rcases h with h | h
        · exact h
        · exact ih true a h hws
    · cases b with
      | true =>
        simp only [collapseAux, hc, if_false, Bool.false_eq_true, List.mem_cons] at h
        rcases h with h | h
        · subst h; simp [hc] at hws
        · exact ih false a h hws
      | false =>
        simp only [collapseAux, hc, if_false, Bool.false_eq_true, List.mem_cons] at h
        rcases h with h | h
        · subst h; simp [hc] at hws
        · exact ih false a h hws

theorem mem_collapseAux {a : Char} : ∀ {b : Bool} {l : List Char},
    a ∈ collapseAux b l → a = ' ' ∨ a ∈ l := by
  intro b l
  induction l generalizing b with
  | nil => intro h; cases b <;> simp [collapseAux] at h
  | cons c rest ih =>
    intro h
    by_cases hc : isJsWs c = true
    · cases b with
      | true =>
        simp only [collapseAux, hc, if_true] at h
        rcases ih h with h' | h'
        · exact Or.inl h'
        · exact Or.inr (List.mem_cons_of_mem _ h')
      | false =>
        simp only [collapseAux, hc, if_true, List.mem_cons] at h
        rcases h with h | h
        · exact Or.inl h
        · rcases ih h with h' | h'
          · exact Or.inl h'
          · exact Or.inr (List.mem_cons_of_mem _ h')
    · cases b with
      | true =>
        simp only [collapseAux, hc, Bool.false_eq_true, if_false, List.mem_cons] at h
        rcases h with h | h
        · exact Or.inr (h ▸ List.mem_cons_self _ _)
        · rcases ih h with h' | h'
          · exact Or.inl h'
          · exact Or.inr (List.mem_cons_of_mem _ h')
      | false =>
        simp only [collapseAux, hc, Bool.false_eq_true, if_false, List.mem_cons] at h
        rcases h with h | h
        · exact Or.inr (h ▸ List.mem_cons_self _ _)
        · rcases ih h with h' | h'
          · exact Or.inl h'
          · exact Or.inr (List.mem_cons_of_mem _ h')

theorem collapseAux_noTwoWs : ∀ l : List Char,
    noTwoWs (collapseAux false l) = true ∧ noTwoWs (collapseAux true l) = true ∧
      headIsWs (collapseAux true l) = false := by
  intro l
  induction l with
  | nil => simp [collapseAux, noTwoWs, headIsWs]
  | cons c rest ih =>
    obtain ⟨ihf, iht, ihh⟩ := ih
    by_cases hc : isJsWs c = true
    · refine ⟨?_, ?_, ?_⟩
      · simp only [collapseAux, hc, if_true, noTwoWs, Bool.and_eq_true,
          Bool.not_eq_eq_eq_not, Bool.not_true]
        refine ⟨?_, iht⟩
        rw [ihh]
        simp
      · simp only [collapseAux, hc, if_true]; exact iht
      · simp only [collapseAux, hc, if_true]; exact ihh
    · have hc' : isJsWs c = false := by simp [hc]
      refine ⟨?_, ?_, ?_⟩
      · simp only [collapseAux, hc', Bool.false_eq_true, if_false, noTwoWs,
          Bool.and_eq_true, Bool.not_eq_eq_eq_not, Bool.not_true]
        exact ⟨by simp [hc'], ihf⟩
      · simp only [collapseAux, hc', Bool.false_eq_true, if_false, noTwoWs,
          Bool.and_eq_true, Bool.not_eq_eq_eq_not, Bool.not_true]
        exact ⟨by simp [hc'], ihf⟩
      · simp only [collapseAux, hc', Bool.false_eq_true, if_false, headIsWs]

theorem collapseAux_true_eq_false (l : List Char) (h : headIsWs l = false) :
    collapseAux true l = collapseAux false l := by
  cases l with
  | nil => rfl
  | cons c rest => simp only [headIsWs] at h; simp [collapseAux, h]

theorem collapseAux_id : ∀ l : List Char,
    (∀ a ∈ l, isJsWs a = true → a = ' ') → noTwoWs l = true →
    collapseAux false l = l := by
  intro l
  induction l with
  | nil => intro _ _; rfl
  | cons c rest ih =>
    intro hws hnt
    simp only [noTwoWs, Bool.and_eq_true, Bool.not_eq_eq_eq_not, Bool.not_true] at hnt
    obtain ⟨hhd, hrest⟩ := hnt
    by_cases hc : isJsWs c = true
    · have hcsp : c = ' ' := hws c (List.mem_cons_self _ _) hc
      have hhr : headIsWs rest = false := by
        cases hb : headIsWs rest with
        | false => rfl
        | true => rw [hc, hb] at hhd; simp at hhd
      simp only [collapseAux, hc, if_true]
      rw [collapseAux_true_eq_false rest hhr,
        ih (fun a ha => hws a (List.mem_cons_of_mem _ ha)) hrest, hcsp]
    · have hc' : isJsWs c = false := by simp [hc]
      simp only [collapseAux, hc', Bool.false_eq_true, if_false]
      rw [ih (fun a ha => hws a (List.mem_cons_of_mem _ ha)) hrest]

theorem mem_trimL {a : Char} {l : List Char} (h : a ∈ trimL l) : a ∈ l := by
  induction l with
  | nil => simp [trimL] at h
  | cons c rest ih =>
    by_cases hc : isJsWs c = true
    · simp only [trimL, List.dropWhile_cons, hc, if_true] at h
      exact List.mem_cons_of_mem _ (ih h)
    · simp only [trimL, List.dropWhile_cons, hc, Bool.false_eq_true, if_false] at h
      exact h

theorem headIsWs_trimL (l : List Char) : headIsWs (trimL l) = false := by
  induction l with
  | nil => rfl
  | cons c rest ih =>
    by_cases hc : isJsWs c = true
    · simpa [trimL, List.dropWhile_cons, hc] using ih
    · simp [trimL, List.dropWhile_cons, hc, headIsWs]

theorem noTwoWs_trimL (l : List Char) (h : noTwoWs l = true) :
    noTwoWs (trimL l) = true := by
  induction l with
  | nil => simpa [trimL] using h
  | cons c rest ih =>
    simp only [noTwoWs, Bool.and_eq_true] at h
    by_cases hc : isJsWs c = true
    · simp only [trimL, List.dropWhile_cons, hc, if_true]
      exact ih h.2
    · simp only [trimL, List.dropWhile_cons, hc, Bool.false_eq_true, if_false]
      simp only [noTwoWs, Bool.and_eq_true]
      exact h

theorem trimL_eq_self (l : List Char) (h : headIsWs l = false) : trimL l = l := by
  cases l with
  | nil => rfl
  | cons c rest => simp only [headIsWs] at h; simp [trimL, List.dropWhile_cons, h]

theorem mem_trimR {a : Char} : ∀ {l : List Char}, a ∈ trimR l → a ∈ l := by
  intro l
  induction l with
  | nil => intro h; simp [trimR] at h
  | cons c rest ih =>
    intro h
    rw [trimR_cons] at h
    cases htr : trimR rest with
    | nil =>
      rw [htr] at h
      by_cases hc : isJsWs c = true
      · simp [hc] at h
      · simp only [hc, Bool.false_eq_true, if_false, List.mem_singleton] at h
        subst h; exact List.mem_cons_self _ _
    | cons d r =>
      rw [htr] at h
      simp only [List.mem_cons] at h
      rcases h with h | h
      · subst h; exact List.mem_cons_self _ _
      · refine List.mem_cons_of_mem _ (ih ?_)
        rw [htr]
        exact List.mem_cons.mpr h

theorem headIsWs_trimR (l : List Char) (h : headIsWs l = false) :
    headIsWs (trimR l) = false := by
  cases l with
  | nil => rfl
  | cons c rest =>
    simp only [headIsWs] at h
    rw [trimR_cons]
    cases trimR rest with
    | nil => simp [h, headIsWs]
    | cons d r => simp [headIsWs, h]

theorem headIsWs_of_trimR : ∀ {l : List Char},
    headIsWs (trimR l) = true → headIsWs l = true := by
  intro l h
  cases l with
  | nil => simp [trimR, headIsWs] at h
  | cons c rest =>
    rw [trimR_cons] at h
    cases htr : trimR rest with
    | nil =>
      rw [htr] at h
      by_cases hc : isJsWs c = true
      · simpa [headIsWs] using hc
      · simp [hc, headIsWs] at h
    | cons d r =>
      rw [htr] at h
      simpa [headIsWs] using h

theorem noTwoWs_trimR : ∀ l : List Char, noTwoWs l = true → noTwoWs (trimR l) = true := by
  intro l
  induction l with
  | nil => intro h; exact h
  | cons c rest ih =>
    intro h
    simp only [noTwoWs, Bool.and_eq_true, Bool.not_eq_eq_eq_not, Bool.not_true] at h
    obtain ⟨hhd, hrest⟩ := h
    rw [trimR_cons]
    cases htr : trimR rest with
    | nil =>
      by_cases hc : isJsWs c = true
      · simp [hc, noTwoWs]
      · simp [hc, noTwoWs, headIsWs]
    | cons d r =>
      have hnt : noTwoWs (d :: r) = true := htr ▸ ih hrest
      have hhd2 : (isJsWs c && headIsWs (d :: r)) = false := by
        cases hb : headIsWs (d :: r) with
        | false => simp [hb]
        | true =>
          have hr : headIsWs (trimR rest) = true := by rw [htr]; exact hb
          have : headIsWs rest = true := headIsWs_of_trimR hr
          rw [this] at hhd
          simp [hhd]
      simp only [noTwoWs, Bool.and_eq_true, Bool.not_eq_eq_eq_not, Bool.not_true] at hnt ⊢
      exact ⟨by simpa [headIsWs] using hhd2, hnt⟩

theorem trimR_idem : ∀ l : List Char, trimR (trimR l) = trimR l := by
  intro l
  induction l with
  | nil => rfl
  | cons c rest ih =>
    rw [trimR_cons]
    cases htr : trimR rest with
    | nil =>
      by_cases hc : isJsWs c = true
      · simp [hc, trimR]
      · simp [hc, trimR]
    | cons d r =>
      have ih' : trimR (d :: r) = d :: r := by
        rw [← htr, ih, htr]
      rw [trimR_cons, ih']

theorem step1_eq_self (l : List Char) (h : ∀ a ∈ l, a ≠ ':') : step1 l = l := by
  induction l with
  | nil => rfl
  | cons c rest ih =>
    simp only [step1, List.map_cons]
    rw [if_neg (h c (List.mem_cons_self _ _))]
    have := ih (fun a ha => h a (List.mem_cons_of_mem _ ha))
    simp only [step1] at this
    rw [this]

theorem step2_eq_self (l : List Char) (h : ∀ a ∈ l, allowedKeep a = true) :
    step2 l = l := by
  induction l with
  | nil => rfl
  | cons c rest ih =>
    simp only [step2, List.map_cons]
    rw [if_pos (h c (List.mem_cons_self _ _))]
    have := ih (fun a ha => h a (List.mem_cons_of_mem _ ha))
    simp only [step2] at this
    rw [this]

theorem mem_step2_allowed {a : Char} {l : List Char} (h : a ∈ step2 l) :
    allowedKeep a = true := by
  simp only [step2, List.mem_map] at h
  obtain ⟨c, _, hc⟩ := h
  by_cases hal : allowedKeep c = true
  · rw [if_pos hal] at hc; subst hc; exact hal
  · rw [if_neg hal] at hc; subst hc; rfl

/-- Characterization of the sanitizer's output: every character is in the
kept class, and every whitespace character is a plain space. -/
theorem sanitizeL_chars {a : Char} {l : List Char} (h : a ∈ sanitizeL l) :
    allowedKeep a = true ∧ (isJsWs a = true → a = ' ') := by
  have h1 : a ∈ collapseAux false (step2 (step1 l)) :=
    mem_trimL (mem_trimR h)
  refine ⟨?_, fun hws => collapseAux_ws_space false _ a h1 hws⟩
  rcases mem_collapseAux h1 with h2 | h2
  · subst h2; decide
  · exact mem_step2_allowed h2

theorem noTwoWs_sanitizeL (l : List Char) : noTwoWs (sanitizeL l) = true :=
  noTwoWs_trimR _ (noTwoWs_trimL _ (collapseAux_noTwoWs _).1)

theorem allowedKeep_ne_colon {a : Char} (h : allowedKeep a = true) : a ≠ ':' := by
  intro he; subst he; simp [allowedKeep, isJsWs] at h

/-- The sanitizer is idempotent at the character-list level. -/
theorem sanitizeL_idem (l : List Char) : sanitizeL (sanitizeL l) = sanitizeL l := by
  have hchars := fun a (ha : a ∈ sanitizeL l) => sanitizeL_chars ha
  have h1 : step1 (sanitizeL l) = sanitizeL l :=
    step1_eq_self _ (fun a ha => allowedKeep_ne_colon (hchars a ha).1)
  have h2 : step2 (sanitizeL l) = sanitizeL l :=
    step2_eq_self _ (fun a ha => (hchars a ha).1)
  have h3 : collapseAux false (sanitizeL l) = sanitizeL l :=
    collapseAux_id _ (fun a ha => (hchars a ha).2) (noTwoWs_sanitizeL l)
  have h4 : trimL (sanitizeL l) = sanitizeL l := by
    apply trimL_eq_self
    exact headIsWs_trimR _ (headIsWs_trimL _)
  show trimR (trimL (collapseAux false (step2 (step1 (sanitizeL l))))) = sanitizeL l
  rw [h1, h2, h3, h4]
  show trimR (trimR (trimL (collapseAux false (step2 (step1 l))))) = sanitizeL l
  rw [trimR_idem]
  rfl

/-! ### Claims about the sanitizer (C6, C7, C8) -/

/-- C6, counterexample: the implemented sanitizer does not equal the spec's
four-step algorithm.  On `"a\tb"` the implementation keeps the tab in step
(2) (the JS class `\s` is kept) and step (3) then turns it into a space,
giving `"a b"`, while the spec's step (2) keeps only a plain space and
turns the tab into `'_'`, giving `"a_b"`. -/
theorem c6_sanitize_ne_spec_alg :
    sanitize "a\tb" = "a b" ∧ sanitizeSpecAlg "a\tb" = "a_b" ∧
      sanitize "a\tb" ≠ sanitizeSpecAlg "a\tb" := by
  refine ⟨rfl, rfl, ?_⟩
  decide

/-- C6, amended: the implemented sanitization equals the spec's four-step
algorithm with step (2) amended to preserve every whitespace character
(the JS class `\s`), not only the plain space: (1) replace every `:` with
`_`; (2) replace every character that is not alphanumeric, `.`, `_`, `-`,
or whitespace with `_`; (3) collapse consecutive whitespace to one space;
(4) trim. -/
theorem c6_sanitize_eq_amended_alg :
    ∀ s : String, sanitize s = sanitizeAmendedAlg s := fun _ => rfl

/-- C7, counterexample: the spec's third test vector fails on the code.
`(` and `)` are not in the kept class `[a-zA-Z0-9._\-\s]`, so the
implementation replaces them with `_`. -/
theorem c7_third_vector_fails :
    sanitize "My Folder (1)" ≠ "My Folder (1)" := by decide

/-- C7, amended: the first two test vectors hold as stated; the third
returns `"My Folder _1_"` (digits and the space are preserved, the
parentheses are replaced by `_`). -/
theorem c7_vectors_amended :
    sanitize "a:b*c" = "a_b_c" ∧ sanitizeOpt "   " = none ∧
      sanitize "My Folder (1)" = "My Folder _1_" :=
  ⟨rfl, rfl, rfl⟩

/-- C8: the sanitizer is idempotent: sanitizing twice equals sanitizing
once, for every input string. -/
theorem c8_sanitize_idem : ∀ s : String, sanitize (sanitize s) = sanitize s := by
  intro s
  show String.mk (sanitizeL (sanitizeL s.data)) = String.mk (sanitizeL s.data)
  rw [sanitizeL_idem]

/-! ### Vault-browser navigation (C9)

Model of the navigation state of `SecureFolderBrowserScreen`
(`media-viewer.tsx`): `currentPath`, `currentPathName`, `pathHistory`,
with paths as character lists.  `loadFilesGuard` is the path-safety check
at the top of `loadFiles` (lines 384-394), `navigateToDirModel` the
directory branch of `navigateToDirectoryOrOpenFile` (lines 829-845), and
`navigateUpModel` is `navigateUp` (lines 490-510). -/

structure NavSt where
  currentPath : List Char
  currentPathName : List Char
  pathHistory : List (List Char × List Char)
deriving DecidableEq

/-- `const SECURE_VAULT_BASENAME = '.SecureVault'` (`media-viewer.tsx:306`). -/
def SECURE_VAULT_BASENAME : List Char := ".SecureVault".data

/-- `const SECURE_VAULT_DISPLAY_NAME = 'Secure Vault'`. -/
def SECURE_VAULT_DISPLAY_NAME : List Char := "Secure Vault".data

/-- `secureVaultRootPath = documentDirectory + SECURE_VAULT_BASENAME`
(`media-viewer.tsx:357`). -/
def vaultRootPath (docDir : List Char) : List Char :=
  docDir ++ SECURE_VAULT_BASENAME

/-- A directory entry as listed by the browser screens. -/
structure VFileEntry where
  name : List Char
  uri : List Char
  isDirectory : Bool
deriving DecidableEq

/-- The guard at the top of `loadFiles`: an empty path or a path that does
not start with the app document directory is replaced by the vault root and
the navigation state is reset; otherwise the path is loaded as given.
Returns the (path, name) actually loaded, and the updated state. -/
def loadFilesGuard (docDir : List Char) (pathToLoad pathName : List Char)
    (st : NavSt) : (List Char × List Char) × NavSt :=
  if pathToLoad.isEmpty || !(docDir.isPrefixOf pathToLoad) then
    ((vaultRootPath docDir, SECURE_VAULT_DISPLAY_NAME),
      ⟨vaultRootPath docDir, SECURE_VAULT_DISPLAY_NAME, []⟩)
  else ((pathToLoad, pathName), st)

/-- The directory branch of `navigateToDirectoryOrOpenFile`: entering a
child directory requires its URI to start with the vault root; otherwise
the navigation is refused and the state is unchanged (files do not change
the navigation state). -/
def navigateToDirModel (docDir : List Char) (item : VFileEntry) (st : NavSt) : NavSt :=
  if item.isDirectory then
    if (vaultRootPath docDir).isPrefixOf item.uri then
      ⟨item.uri, item.name, st.pathHistory ++ [(st.currentPath, st.currentPathName)]⟩
    else st
  else st

/-- `navigateUp`: pop the last history entry if it is inside the vault
root, reset to the vault root otherwise; with empty history the navigation
state is unchanged (the screen is closed instead). -/
def navigateUpModel (docDir : List Char) (st : NavSt) : NavSt :=
  match st.pathHistory.getLast? with
  | some prev =>
    if (vaultRootPath docDir).isPrefixOf prev.1 then
      ⟨prev.1, prev.2, st.pathHistory.dropLast⟩
    else
      ⟨vaultRootPath docDir, SECURE_VAULT_DISPLAY_NAME, []⟩
  | none => st

/-- The confinement invariant: the current path starts with the vault root. -/
def inVault (docDir : List Char) (st : NavSt) : Bool :=
  (vaultRootPath docDir).isPrefixOf st.currentPath

theorem isPrefixOf_self (l : List Char) : l.isPrefixOf l = true := by
  induction l with
  | nil => rfl
  | cons c rest ih => simp [List.isPrefixOf, ih]

/-- C9, counterexample: a load request for a path inside the app document
directory but outside the vault root is NOT corrected back to the vault
root — the guard only checks the document-directory prefix, so the path is
loaded as given. -/
theorem c9_outside_vault_not_corrected :
    loadFilesGuard "d/".data "d/Other".data "Other".data
        ⟨vaultRootPath "d/".data, SECURE_VAULT_DISPLAY_NAME, []⟩ =
      (("d/Other".data, "Other".data),
        ⟨vaultRootPath "d/".data, SECURE_VAULT_DISPLAY_NAME, []⟩) ∧
      (vaultRootPath "d/".data).isPrefixOf "d/Other".data = false := by
  constructor
  · rfl
  · decide

/-- C9, amended: every navigation or load operation preserves the
invariant that the current path starts with the vault root; the load guard
corrects a path outside the app **document directory** (not every path
outside the vault) back to the vault root; entering a child directory
outside the vault is refused; navigating up to a history entry outside the
vault resets to the vault root. -/
theorem c9_confinement_amended :
    (∀ docDir p n st, inVault docDir st = true →
      inVault docDir (loadFilesGuard docDir p n st).2 = true) ∧
    (∀ docDir p n st, docDir.isPrefixOf p = false →
      (loadFilesGuard docDir p n st).2.currentPath = vaultRootPath docDir ∧
      (loadFilesGuard docDir p n st).1.1 = vaultRootPath docDir) ∧
    (∀ docDir item st, (vaultRootPath docDir).isPrefixOf item.uri = false →
      navigateToDirModel docDir item st = st) ∧
    (∀ docDir item st, inVault docDir st = true →
      inVault docDir (navigateToDirModel docDir item st) = true) ∧
    (∀ docDir st, inVault docDir st = true →
      inVault docDir (navigateUpModel docDir st) = true) := by
  refine ⟨?_, ?_, ?_, ?_, ?_⟩
  · intro docDir p n st h
    unfold loadFilesGuard
    by_cases hc : (p.isEmpty || !(docDir.isPrefixOf p)) = true
    · simp only [hc, if_true]
      exact isPrefixOf_self _
    · rw [if_neg hc]
      exact h
  · intro docDir p n st h
    unfold loadFilesGuard
    rw [if_pos]
    · exact ⟨rfl, rfl⟩
    · simp [h]
  · intro docDir item st h
    unfold navigateToDirModel
    by_cases hd : item.isDirectory = true
    · simp [hd, h]
    · simp [hd]
  · intro docDir item st h
    unfold navigateToDirModel
    by_cases hd : item.isDirectory = true
    · by_cases hp : (vaultRootPath docDir).isPrefixOf item.uri = true
      · simp only [hd, if_true, hp]
        exact hp
      · simp only [hd, if_true]
        rw [if_neg (by simp [hp])]
        exact h
    · rw [if_neg (by simp [hd])]
      exact h
  · intro docDir st h
    unfold navigateUpModel
    split
    · rename_i prev _
      split
      · rename_i hp
        exact hp
      · exact isPrefixOf_self _
    · exact h

/-- Witness for `c9_confinement_amended` at concrete inputs. -/
theorem c9_confinement_amended_witness :
    inVault "d/".data (loadFilesGuard "d/".data "x".data "x".data
      ⟨vaultRootPath "d/".data, SECURE_VAULT_DISPLAY_NAME, []⟩).2 = true ∧
    (loadFilesGuard "d/".data "x".data "x".data
      ⟨vaultRootPath "d/".data, SECURE_VAULT_DISPLAY_NAME, []⟩).2.currentPath =
        vaultRootPath "d/".data ∧
    navigateToDirModel "d/".data ⟨"e".data, "e".data, true⟩
      ⟨vaultRootPath "d/".data, SECURE_VAULT_DISPLAY_NAME, []⟩ =
      ⟨vaultRootPath "d/".data, SECURE_VAULT_DISPLAY_NAME, []⟩ ∧
    inVault "d/".data (navigateUpModel "d/".data
      ⟨vaultRootPath "d/".data, SECURE_VAULT_DISPLAY_NAME, []⟩) = true := by
  refine ⟨?_, ?_, ?_, ?_⟩
  · exact c9_confinement_amended.1 "d/".data "x".data "x".data _ (by decide)
  · exact (c9_confinement_amended.2.1 "d/".data "x".data "x".data
      ⟨vaultRootPath "d/".data, SECURE_VAULT_DISPLAY_NAME, []⟩ (by decide)).1
  · exact c9_confinement_amended.2.2.1 "d/".data ⟨"e".data, "e".data, true⟩ _ (by decide)
  · exact c9_confinement_amended.2.2.2.2 "d/".data _ (by decide)

/-! ### Directory listings and hidden entries (C10)

Model of the listing loops of `loadFiles` in `FileManagerScreen.tsx`
(direct-path branch, lines 190-217; SAF branch, lines 145-189) and of the
vault browser's `loadFiles` in `media-viewer.tsx` (lines 399-427, same
logic as the direct-path branch).  The `getInfoAsync` outcome is a
parameter: `none` models a listed name whose info is missing or erroring
(the item is skipped), `some d` gives its directory flag.  In the SAF
branch every non-hidden URI produces an entry (the exists, not-exists and
catch branches all push one); `isDir` merges how its flag is determined. -/

/-- The suffix after the last occurrence of a separator character
(JS `s.substring(s.lastIndexOf(sep) + 1)`, and
`substring(Math.max(lastSlash, lastColon) + 1)` with a two-char class). -/
def afterLast (p : Char → Bool) (l : List Char) : List Char :=
  l.foldl (fun acc c => if p c then [] else acc ++ [c]) []

/-- `name.startsAt('.')` test used by the listing filters. -/
def startsWithDot : List Char → Bool
  | [] => false
  | c :: _ => c = '.'

/-- Direct-path listing loop: skip names starting with a dot, then skip
names whose `getInfoAsync` does not report an existing item; keep
(name, isDirectory) otherwise. -/
def fsListing (names : List (List Char)) (info : List Char → Option Bool) :
    List VFileEntry :=
  names.filterMap fun n =>
    if startsWithDot n then none
    else match info n with
      | some d => some ⟨n, n, d⟩
      | none => none

/-- SAF listing loop: the document id is the decoded last URI segment, the
leaf name is the id's suffix after the last `/` or `:`; entries with a
dotted leaf are skipped, all others are pushed with the document id as
display name. -/
def safListing (uris : List (List Char)) (dec : List Char → List Char)
    (isDir : List Char → Bool) : List VFileEntry :=
  uris.filterMap fun uri =>
    let docId := dec (afterLast (fun c => c = '/') uri)
    let leaf := afterLast (fun c => c = '/' || c = ':') docId
    if startsWithDot leaf then none else some ⟨docId, uri, isDir uri⟩

/-- Insertion step of the comparator sort applied to the entries
(`entries.sort(...)`, directories first then `localeCompare`; the
comparator is a parameter since only the membership of the sorted output
matters here). -/
def insertSorted (le : VFileEntry → VFileEntry → Bool) (e : VFileEntry) :
    List VFileEntry → List VFileEntry
  | [] => [e]
  | f :: rest => if le e f then e :: f :: rest else f :: insertSorted le e rest

/-- The comparator sort of the listing. -/
def sortEntries (le : VFileEntry → VFileEntry → Bool)
    (l : List VFileEntry) : List VFileEntry :=
  l.foldr (insertSorted le) []

/-- The direct-path `loadFiles` result: filtered then sorted. -/
def loadFilesFS (names : List (List Char)) (info : List Char → Option Bool)
    (le : VFileEntry → VFileEntry → Bool) : List VFileEntry :=
  sortEntries le (fsListing names info)

/-- The SAF `loadFiles` result: filtered then sorted. -/
def loadFilesSAF (uris : List (List Char)) (dec : List Char → List Char)
    (isDir : List Char → Bool) (le : VFileEntry → VFileEntry → Bool) :
    List VFileEntry :=
  sortEntries le (safListing uris dec isDir)

theorem mem_insertSorted {e a : VFileEntry} {le : VFileEntry → VFileEntry → Bool} :
    ∀ {l : List VFileEntry}, a ∈ insertSorted le e l → a = e ∨ a ∈ l := by
  intro l
  induction l with
  | nil => intro h; simpa [insertSorted] using h
  | cons f rest ih =>
    intro h
    simp only [insertSorted] at h
    by_cases hle : le e f = true
    · rw [if_pos hle] at h
      simp only [List.mem_cons] at h
      rcases h with h | h | h
      · exact Or.inl h
      · exact Or.inr (h ▸ List.mem_cons_self _ _)
      · exact Or.inr (List.mem_cons_of_mem _ h)
    · rw [if_neg hle] at h
      simp only [List.mem_cons] at h
      rcases h with h | h
      · exact Or.inr (h ▸ List.mem_cons_self _ _)
      · rcases ih h with h' | h'
        · exact Or.inl h'
        · exact Or.inr (List.mem_cons_of_mem _ h')

theorem mem_sortEntries {a : VFileEntry} {le : VFileEntry → VFileEntry → Bool} :
    ∀ {l : List VFileEntry}, a ∈ sortEntries le l → a ∈ l := by
  intro l
  induction l with
  | nil => intro h; simp [sortEntries] at h
  | cons f rest ih =>
    intro h
    simp only [sortEntries, List.foldr_cons] at h
    rcases mem_insertSorted h with h' | h'
    · exact h' ▸ List.mem_cons_self _ _
    · exact List.mem_cons_of_mem _ (ih h')

/-- C10: every entry of a direct-path listing (file manager and vault
browser) has a name that does not start with a dot; every entry of a SAF
listing has a leaf name that does not start with a dot; in particular
`.SecureVault` never appears in a direct-path listing of the app's
document directory. -/
theorem c10_listings_hide_dotted :
    (∀ names info le e, e ∈ loadFilesFS names info le →
      startsWithDot e.name = false) ∧
    (∀ uris dec isDir le e, e ∈ loadFilesSAF uris dec isDir le →
      startsWithDot (afterLast (fun c => c = '/' || c = ':') e.name) = false) ∧
    (∀ names info le e, e ∈ loadFilesFS names info le →
      e.name ≠ SECURE_VAULT_BASENAME) := by
  have hfs : ∀ names info le (e : VFileEntry), e ∈ loadFilesFS names info le →
      startsWithDot e.name = false := by
    intro names info le e h
    have h1 : e ∈ fsListing names info := mem_sortEntries h
    simp only [fsListing, List.mem_filterMap] at h1
    obtain ⟨n, _, hn⟩ := h1
    by_cases hd : startsWithDot n = true
    · rw [if_pos hd] at hn; cases hn
    · rw [if_neg hd] at hn
      cases hinfo : info n with
      | none => rw [hinfo] at hn; cases hn
      | some d =>
        rw [hinfo] at hn
        cases hn
        simpa using hd
  refine ⟨hfs, ?_, ?_⟩
  · intro uris dec isDir le e h
    have h1 : e ∈ safListing uris dec isDir := mem_sortEntries h
    simp only [safListing, List.mem_filterMap] at h1
    obtain ⟨uri, _, hn⟩ := h1
    by_cases hd : startsWithDot (afterLast (fun c => c = '/' || c = ':')
        (dec (afterLast (fun c => c = '/') uri))) = true
    · rw [if_pos hd] at hn; cases hn
    · rw [if_neg hd] at hn
      cases hn
      simpa using hd
  · intro names info le e h hne
    have := hfs names info le e h
    rw [hne] at this
    simp [SECURE_VAULT_BASENAME, startsWithDot] at this

/-- Witness for `c10_listings_hide_dotted` at concrete inputs: a document
directory containing `.SecureVault` and `Docs` lists only `Docs`, and a SAF
listing with a hidden leaf keeps only the visible entry. -/
theorem c10_listings_hide_dotted_witness :
    startsWithDot (VFileEntry.mk "Docs".data "Docs".data true).name = false ∧
    startsWithDot (afterLast (fun c => c = '/' || c = ':')
      (VFileEntry.mk "primary:a/b".data "u/primary%3Aa%2Fb".data false).name) = false ∧
    (VFileEntry.mk "Docs".data "Docs".data true).name ≠ SECURE_VAULT_BASENAME := by
  refine ⟨?_, ?_, ?_⟩
  · exact c10_listings_hide_dotted.1
      [".SecureVault".data, "Docs".data]
      (fun _ => some true) (fun _ _ => true) _ (by decide)
  · exact c10_listings_hide_dotted.2.1
      ["u/primary%3Aa%2Fb".data, "u/x%2F.hidden".data]
      (fun u => if u = "primary%3Aa%2Fb".data then "primary:a/b".data
                else "x/.hidden".data)
      (fun _ => false) (fun _ _ => true) _ (by decide)
  · exact c10_listings_hide_dotted.2.2
      [".SecureVault".data, "Docs".data]
      (fun _ => some true) (fun _ _ => true) _ (by decide)

/-! ### File trees and the copy engines

A file-system subtree: a file with byte content, or a directory with an
ordered list of named children.  The vault (a direct-path tree) and the
SAF destination (a scoped tree) are both represented by the children list
of the relevant root/parent directory, since the copy functions of the
source only ever read and write inside the subtree they are given
(every destination path they form is `destinationParent + '/' + name`). -/

inductive FsTree where
  | file (content : List Nat)
  | dir (children : List (String × FsTree))

/-- Child lookup by name in a directory's children list. -/
def lookupChild : List (String × FsTree) → String → Option FsTree
  | [], _ => none
  | (m, u) :: rest, n => if m = n then some u else lookupChild rest n

/-- Create or replace the child of the given name. -/
def setChild : List (String × FsTree) → String → FsTree → List (String × FsTree)
  | [], n, v => [(n, v)]
  | (m, u) :: rest, n, v =>
    if m = n then (n, v) :: rest else (m, u) :: setChild rest n v

/-- Remove the child of the given name (`deleteAsync` with
`idempotent: true`: removing a missing name is a no-op). -/
def removeChild : List (String × FsTree) → String → List (String × FsTree)
  | [], _ => []
  | (m, u) :: rest, n => if m = n then rest else (m, u) :: removeChild rest n

/-- Error thrown by a failing `FileSystem.copyAsync`. -/
def copyFailErr : String := "Failed to copy file"

/-- Error thrown by `makeDirectoryAsync` when a file blocks the path. -/
def mkdirFailErr : String := "Failed to create directory"

/-- The collision error of `handleImportFolder`
(`FileManagerScreen.tsx:481`). -/
def collisionErr (s : String) : String :=
  "A folder named " ++ s ++ " already exists in Secure Vault."

/-- Result of one import-direction copy call: the progress messages it
emitted, the updated children list of the destination parent directory,
and the exception it threw, if any (partial writes persist even when an
exception is thrown). -/
structure CRes where
  msgs : List String
  dest : List (String × FsTree)
  err : Option String

mutual

/-- `copyDirectoryRecursively` (`FileManagerScreen.tsx:355-425`,
`media-viewer.tsx:526-584`): copy one source item (identified by its
derived `itemName` and its tree) into the destination parent.  The name is
sanitized; an empty sanitized name skips the item.  A directory is created
(`makeDirectoryAsync` with intermediates: merging with an existing
directory, throwing when a file blocks the name) and its children are then
copied into it; a file is copied with `copyAsync`.  The oracle `fail`
says, per source path, whether the platform copy call throws; a thrown
exception propagates (there is no catch in this function). -/
def copyDirRec (fail : List String → Bool) (srcPath : List String)
    (name : String) (t : FsTree) (dest : List (String × FsTree)) : CRes :=
  match sanitizeOpt name with
  | none => ⟨["Skipped: " ++ name], dest, none⟩
  | some s =>
    match t with
    | .file c =>
      if fail srcPath then
        ⟨["Processing: " ++ s, "Copying file: " ++ s], dest, some copyFailErr⟩
      else
        ⟨["Processing: " ++ s, "Copying file: " ++ s],
          setChild dest s (.file c), none⟩
    | .dir ch =>
      match lookupChild dest s with
      | some (.file _) =>
        ⟨["Processing: " ++ s, "Creating directory: " ++ s], dest, some mkdirFailErr⟩
      | some (.dir ch0) =>
        let r := copyChildren fail srcPath ch ch0
        ⟨("Processing: " ++ s) :: ("Creating directory: " ++ s) :: r.msgs,
          setChild dest s (.dir r.dest), r.err⟩
      | none =>
        let r := copyChildren fail srcPath ch []
        ⟨("Processing: " ++ s) :: ("Creating directory: " ++ s) :: r.msgs,
          setChild dest s (.dir r.dest), r.err⟩

/-- The `for (const childUri of childUris) await copyDirectoryRecursively(...)`
loop: children are copied in order; an exception thrown by one child
aborts the loop (the remaining siblings are not attempted) and propagates. -/
def copyChildren (fail : List String → Bool) (base : List String)
    (entries : List (String × FsTree)) (dest : List (String × FsTree)) : CRes :=
  match entries with
  | [] => ⟨[], dest, none⟩
  | (n, t) :: rest =>
    let r := copyDirRec fail (base ++ [n]) n t dest
    match r.err with
    | some e => ⟨r.msgs, r.dest, some e⟩
    | none =>
      let r2 := copyChildren fail base rest r.dest
      ⟨r.msgs ++ r2.msgs, r2.dest, r2.err⟩

end

/-! ### Events, metadata store, and the import orchestrator -/

/-- Trace events of an orchestrator run: progress messages, the recursive
SAF deletion of the original tree, a metadata-store write, the deletion of
a vault-resident folder, and a metadata-store removal. -/
inductive Ev where
  | msg (s : String)
  | deletedOriginal
  | wroteMeta (k : String)
  | deletedVaultFolder
  | removedMeta (k : String)
deriving DecidableEq

/-- Non-message events of a trace, in order. -/
def filterEvents : List Ev → List Ev
  | [] => []
  | .msg _ :: r => filterEvents r
  | e :: r => e :: filterEvents r

/-- A `SecureFolderMeta` record (`FileManagerScreen.tsx:29-34`); the
`importedDate` timestamp is not modelled, no claim concerns it. -/
structure MetaRec where
  originalUri : String
  originalName : String
deriving DecidableEq

/-- Lookup in the metadata store (`secureMetadata[folderNameInVault]`). -/
def lookupMeta : List (String × MetaRec) → String → Option MetaRec
  | [], _ => none
  | (m, u) :: rest, n => if m = n then some u else lookupMeta rest n

/-- `metadata[key] = record` on the JS object: replace or append. -/
def setMeta : List (String × MetaRec) → String → MetaRec → List (String × MetaRec)
  | [], n, v => [(n, v)]
  | (m, u) :: rest, n, v =>
    if m = n then (n, v) :: rest else (m, u) :: setMeta rest n v

/-- `delete updatedMetadata[folderNameInVault]`: the key is gone. -/
def removeMeta (store : List (String × MetaRec)) (k : String) :
    List (String × MetaRec) :=
  store.filter (fun kv => !(kv.1 == k))

/-- Outcome of `handleImportFolder`'s confirmed import flow
(`FileManagerScreen.tsx:463-503`, `media-viewer.tsx:619-655`): the event
trace, the vault root's children, the metadata store, whether the SAF
recursive deletion of the original tree executed, and the exception that
ended the flow, if any. -/
structure ImportOut where
  trace : List Ev
  vault : List (String × FsTree)
  meta : List (String × MetaRec)
  deletedOriginal : Bool
  err : Option String

/-- `handleImportFolder` after the user confirmation: on a denied grant the
flow stops with no mutation; otherwise the top-level name is sanitized and
checked for a collision in the vault root (an empty sanitized name makes
the destination path the vault root itself, which exists, hence also a
collision); on collision the flow throws with no mutation; otherwise the
destination directory is created, every child of the granted tree is
copied into it (partial copies persisting on error), and only on a fully
successful copy pass the original tree is deleted and the metadata record
written — in that order. -/
def importOp (sourceUri sourceName : String) (srcCh : List (String × FsTree))
    (vaultCh : List (String × FsTree)) (meta : List (String × MetaRec))
    (fail : List String → Bool) : Bool → ImportOut
  | false =>
    ⟨[.msg "Permission Denied"], vaultCh, meta, false,
      some "Cannot import folder without permissions."⟩
  | true =>
    if sanitize sourceName == "" || (lookupChild vaultCh (sanitize sourceName)).isSome then
      ⟨[.msg ("Starting import of " ++ sourceName),
        .msg ("Error: " ++ collisionErr (sanitize sourceName))],
        vaultCh, meta, false, some (collisionErr (sanitize sourceName))⟩
    else
      match (copyChildren fail [] srcCh []).err with
      | some e =>
        ⟨(.msg ("Starting import of " ++ sourceName)) ::
            (.msg ("Copying contents of " ++ sourceName)) ::
            (copyChildren fail [] srcCh []).msgs.map Ev.msg ++ [.msg ("Error: " ++ e)],
          setChild vaultCh (sanitize sourceName) (.dir (copyChildren fail [] srcCh []).dest),
          meta, false, some e⟩
      | none =>
        ⟨(.msg ("Starting import of " ++ sourceName)) ::
            (.msg ("Copying contents of " ++ sourceName)) ::
            (copyChildren fail [] srcCh []).msgs.map Ev.msg ++
            [.msg ("Successfully copied " ++ sourceName ++ ". Now deleting original..."),
             .msg ("Deleting original: " ++ sourceUri),
             Ev.deletedOriginal,
             .msg ("Deleted original: " ++ sourceUri),
             Ev.wroteMeta (sanitize sourceName),
             .msg ("Import of " ++ sourceName ++ " complete!")],
          setChild vaultCh (sanitize sourceName) (.dir (copyChildren fail [] srcCh []).dest),
          setMeta meta (sanitize sourceName) ⟨sourceUri, sourceName⟩,
          true, none⟩

/-! ### The restore copy engine -/

/-- Result of one restore-direction copy call: progress messages, the
updated children of the SAF destination parent, and the number of
per-item failures that were caught (and only reported). -/
structure RRes where
  msgs : List String
  dest : List (String × FsTree)
  fails : Nat

/-- Children copied under a located "directory" that is actually a file:
every per-child SAF create throws, is caught, and counts one failure
(directory children skip their whole subtree). -/
def failedChildren : List (String × FsTree) → List String × Nat
  | [] => ([], 0)
  | (n, FsTree.dir _) :: rest =>
    let r := failedChildren rest
    (("Restoring: " ++ n) ::
      ("Error with directory " ++ n ++ ". Skipping children.") :: r.1, r.2 + 1)
  | (n, FsTree.file _) :: rest =>
    let r := failedChildren rest
    (("Restoring: " ++ n) :: ("Error restoring file " ++ n) :: r.1, r.2 + 1)

mutual

/-- `copyToSAFRecursively` (`media-viewer.tsx:663-729`) for an existing
source item.  A directory is created with `createFileAsync`, which in the
model returns the fresh directory, or `null` when the name already exists
— in which case the parent is re-listed and the existing child is used
(if that child is a file, every child copy then fails).  Directory
failures are caught: the children are skipped, siblings continue.  A file
is created then written from a base64 read of the source; a thrown
read/write error is caught and reported, leaving the freshly created file
empty.  The oracle `fail` says, per vault-side source path, whether the
platform call for that item throws. -/
def copyToSAFRec (fail : List String → Bool) (srcPath : List String)
    (t : FsTree) (itemName : String) (dest : List (String × FsTree)) : RRes :=
  match t with
  | .dir ch =>
    if fail srcPath then
      ⟨["Restoring: " ++ itemName,
        "Error with directory " ++ itemName ++ ". Skipping children."], dest, 1⟩
    else
      match lookupChild dest itemName with
      | some (.file _) =>
        let fc := failedChildren ch
        ⟨("Restoring: " ++ itemName) ::
            ("Created/Verified directory: " ++ itemName) :: fc.1, dest, fc.2⟩
      | some (.dir ch0) =>
        let r := restoreChildren fail srcPath ch ch0
        ⟨("Restoring: " ++ itemName) ::
            ("Created/Verified directory: " ++ itemName) :: r.msgs,
          setChild dest itemName (.dir r.dest), r.fails⟩
      | none =>
        let r := restoreChildren fail srcPath ch []
        ⟨("Restoring: " ++ itemName) ::
            ("Created/Verified directory: " ++ itemName) :: r.msgs,
          setChild dest itemName (.dir r.dest), r.fails⟩
  | .file c =>
    if fail srcPath then
      match lookupChild dest itemName with
      | none =>
        ⟨["Restoring: " ++ itemName, "Error restoring file " ++ itemName],
          setChild dest itemName (.file []), 1⟩
      | some _ =>
        ⟨["Restoring: " ++ itemName, "Error restoring file " ++ itemName], dest, 1⟩
    else
      ⟨["Restoring: " ++ itemName, "Restored file: " ++ itemName],
        setChild dest itemName (.file c), 0⟩

/-- The `for (const childName of childrenNames)` loop of the restore copy:
every child is attempted in order; failures of one child never abort its
siblings (they were caught inside the child's call). -/
def restoreChildren (fail : List String → Bool) (base : List String)
    (ch : List (String × FsTree)) (dest : List (String × FsTree)) : RRes :=
  match ch with
  | [] => ⟨[], dest, 0⟩
  | (n, t) :: rest =>
    let r := copyToSAFRec fail (base ++ [n]) t n dest
    let r2 := restoreChildren fail base rest r.dest
    ⟨r.msgs ++ r2.msgs, r2.dest, r.fails + r2.fails⟩

end

/-- Outcome of `handleRestoreFolder`'s confirmed restore flow
(`media-viewer.tsx:731-803`): the event trace, the vault root's children,
the metadata store, the children of the granted SAF destination parent,
the number of caught per-item copy failures, whether the deletion of the
vault folder executed, and the exception that ended the flow, if any. -/
structure RestoreOut where
  trace : List Ev
  vault : List (String × FsTree)
  meta : List (String × MetaRec)
  dest : List (String × FsTree)
  fails : Nat
  deletedVault : Bool
  err : Option String

/-- `handleRestoreFolder`: abort if no metadata record exists; abort if the
permission grant is denied; otherwise copy the vault folder (named by the
record's original display name) into the granted destination parent with
`copyToSAFRecursively` — whose per-item failures are caught and only
reported — then unconditionally delete the folder from the vault
(`deleteAsync`, idempotent) and remove the metadata record.  A vault
folder that does not exist is reported as skipped by the copy, and the
deletion and metadata removal still run. -/
def restoreOp (vaultCh : List (String × FsTree)) (meta : List (String × MetaRec))
    (folderName : String) (destP : List (String × FsTree))
    (fail : List String → Bool) (granted : Bool) : RestoreOut :=
  match lookupMeta meta folderName with
  | none =>
    ⟨[.msg "Metadata not found for this folder. Cannot restore."],
      vaultCh, meta, destP, 0, false, some "Metadata not found"⟩
  | some m =>
    match granted with
    | false =>
      ⟨[.msg ("Starting restore of " ++ m.originalName),
        .msg "Error: Permission denied to access the original location."],
        vaultCh, meta, destP, 0, false,
        some "Permission denied to access the original location."⟩
    | true =>
      let r := match lookupChild vaultCh folderName with
        | none =>
          RRes.mk ["Skipped: " ++ m.originalName ++ " (source does not exist)"] destP 0
        | some t => copyToSAFRec fail [folderName] t m.originalName destP
      ⟨(.msg ("Starting restore of " ++ m.originalName)) ::
          r.msgs.map Ev.msg ++
          [.msg ("Successfully restored " ++ m.originalName ++
             ". Now deleting from Secure Vault..."),
           Ev.deletedVaultFolder,
           Ev.removedMeta folderName],
        removeChild vaultCh folderName, removeMeta meta folderName,
        r.dest, r.fails, true, none⟩

/-! ### Claims about the orchestrators (C1, C3, C4, C5) -/

/-- C1, counterexample: a restore run in which one file copy fails (one
caught per-item failure) and the destructive deletion of the vault-resident
folder executes anyway. -/
theorem c1_restore_deletes_despite_failure :
    (restoreOp [("F", FsTree.dir [("a.txt", FsTree.file [104, 105])])]
        [("F", ⟨"content://orig/F", "F"⟩)] "F" []
        (fun p => p == ["F", "a.txt"]) true).fails = 1 ∧
    (restoreOp [("F", FsTree.dir [("a.txt", FsTree.file [104, 105])])]
        [("F", ⟨"content://orig/F", "F"⟩)] "F" []
        (fun p => p == ["F", "a.txt"]) true).deletedVault = true :=
  ⟨rfl, rfl⟩

/-- C1, amended: on import, any failure during the copy pass raises an
exception that ends the flow before the deletion step, so the original
granted tree is never deleted after a failed copy pass; on restore,
per-item copy failures are caught and only reported, and the deletion of
the vault-resident folder executes regardless of copy failures. -/
theorem c1_deletion_gating_amended :
    (∀ uri name srcCh vaultCh meta fail g,
      (importOp uri name srcCh vaultCh meta fail g).err ≠ none →
      (importOp uri name srcCh vaultCh meta fail g).deletedOriginal = false) ∧
    (∀ vaultCh meta folderName destP fail m,
      lookupMeta meta folderName = some m →
      (restoreOp vaultCh meta folderName destP fail true).deletedVault = true) := by
  constructor
  · intro uri name srcCh vaultCh meta fail g
    cases g with
    | false => intro _; rfl
    | true =>
      intro h
      simp only [importOp] at h ⊢
      by_cases hc : (sanitize name == "" ||
          (lookupChild vaultCh (sanitize name)).isSome) = true
      · rw [if_pos hc]
      · rw [if_neg hc] at h ⊢
        cases hre : (copyChildren fail [] srcCh []).err with
        | some e => simp only [hre]
        | none => simp only [hre] at h; exact absurd rfl h
  · intro vaultCh meta folderName destP fail m hm
    unfold restoreOp
    rw [hm]

/-- Witness for `c1_deletion_gating_amended` at concrete inputs. -/
theorem c1_deletion_gating_amended_witness :
    (importOp "u" "N" [("a", FsTree.file [1])] [] []
        (fun p => p == ["a"]) true).deletedOriginal = false ∧
    (restoreOp [("F", FsTree.dir [])] [("F", ⟨"u", "F"⟩)] "F" []
        (fun _ => false) true).deletedVault = true :=
  ⟨c1_deletion_gating_amended.1 "u" "N" [("a", FsTree.file [1])] [] []
      (fun p => p == ["a"]) true (by decide),
    c1_deletion_gating_amended.2 [("F", FsTree.dir [])] [("F", ⟨"u", "F"⟩)] "F" []
      (fun _ => false) ⟨"u", "F"⟩ rfl⟩

/-- C3, counterexample: a fully successful import whose only non-message
events are the deletion of the original followed by the metadata write —
the metadata record is not written before the deletion. -/
theorem c3_delete_precedes_metadata :
    (importOp "content://u/Photos" "Photos" [("a.jpg", FsTree.file [1, 2])] [] []
        (fun _ => false) true).err = none ∧
    filterEvents (importOp "content://u/Photos" "Photos"
        [("a.jpg", FsTree.file [1, 2])] [] [] (fun _ => false) true).trace =
      [Ev.deletedOriginal, Ev.wroteMeta "Photos"] :=
  ⟨rfl, rfl⟩

theorem filterEvents_map_msg_append (msgs : List String) (rest : List Ev) :
    filterEvents (msgs.map Ev.msg ++ rest) = filterEvents rest := by
  induction msgs with
  | nil => rfl
  | cons m ms ih => simpa [filterEvents] using ih

/-- C3, amended: for every successful import the orchestrator executes its
terminal steps in the source's order: on copy success the original granted
tree is recursively deleted first, and the new MetadataRecord keyed by the
sanitized top-level name is written to the metadata store after that
deletion. -/
theorem c3_terminal_order_amended :
    ∀ uri name srcCh vaultCh meta fail g,
      (importOp uri name srcCh vaultCh meta fail g).err = none →
      filterEvents (importOp uri name srcCh vaultCh meta fail g).trace =
        [Ev.deletedOriginal, Ev.wroteMeta (sanitize name)] := by
  intro uri name srcCh vaultCh meta fail g
  cases g with
  | false => intro h; exact absurd h (by simp [importOp])
  | true =>
    intro h
    simp only [importOp] at h ⊢
    by_cases hc : (sanitize name == "" ||
        (lookupChild vaultCh (sanitize name)).isSome) = true
    · rw [if_pos hc] at h; exact absurd h (by simp)
    · rw [if_neg hc] at h ⊢
      cases hre : (copyChildren fail [] srcCh []).err with
      | some e => simp only [hre] at h; exact absurd h (by simp)
      | none =>
        simp only [hre]
        simp only [filterEvents, List.append_eq]
        rw [filterEvents_map_msg_append]
        rfl

/-- Witness for `c3_terminal_order_amended` at a concrete successful
import. -/
theorem c3_terminal_order_amended_witness :
    filterEvents (importOp "u" "P" [("a", FsTree.file [1])] [] []
        (fun _ => false) true).trace = [Ev.deletedOriginal, Ev.wroteMeta "P"] :=
  c3_terminal_order_amended "u" "P" [("a", FsTree.file [1])] [] []
    (fun _ => false) true rfl

/-- C4, counterexample: in the import direction a failing file copy throws
and the failing item's sibling is never attempted: with two sibling files
where the first copy fails, the copy pass stops after the first item and no
message for the second is ever emitted. -/
theorem c4_import_abort_siblings :
    (copyChildren (fun p => p == ["a.txt"]) []
        [("a.txt", FsTree.file [1]), ("b.txt", FsTree.file [2])] []).msgs =
      ["Processing: a.txt", "Copying file: a.txt"] ∧
    (copyChildren (fun p => p == ["a.txt"]) []
        [("a.txt", FsTree.file [1]), ("b.txt", FsTree.file [2])] []).err =
      some copyFailErr ∧
    "Processing: b.txt" ∉ (copyChildren (fun p => p == ["a.txt"]) []
        [("a.txt", FsTree.file [1]), ("b.txt", FsTree.file [2])] []).msgs :=
  ⟨rfl, rfl, by decide⟩

/-- Every restore copy call emits its `Restoring:` progress message first,
whatever happens afterwards. -/
theorem restoring_msg_mem (fail : List String → Bool) (p : List String)
    (t : FsTree) (n : String) (dest : List (String × FsTree)) :
    ("Restoring: " ++ n) ∈ (copyToSAFRec fail p t n dest).msgs := by
  cases t with
  | dir ch =>
    unfold copyToSAFRec
    by_cases hf : fail p = true
    · simp [hf]
    · simp only [hf, Bool.false_eq_true, if_false]
      cases lookupChild dest n with
      | none => simp
      | some u =>
        cases u with
        | file c => simp
        | dir ch0 => simp
  | file c =>
    unfold copyToSAFRec
    by_cases hf : fail p = true
    · simp only [hf, if_true]
      cases lookupChild dest n with
      | none => simp
      | some u => simp
    · simp [hf]

/-- C4, amended: in the restore direction (direct-path to scoped-tree) a
failure on one item does not abort its siblings — every child of the list
is attempted (its `Restoring:` message is emitted) whatever happened to the
items before it; in the import direction (scoped-tree to direct-path) a
failure copying one file or creating one directory throws, and the
remaining siblings of the failing item are not attempted (the loop's
output is exactly the failing item's output). -/
theorem c4_sibling_behavior_amended :
    (∀ fail base ch dest n t, (n, t) ∈ ch →
      ("Restoring: " ++ n) ∈ (restoreChildren fail base ch dest).msgs) ∧
    (∀ fail base n t rest dest e,
      (copyDirRec fail (base ++ [n]) n t dest).err = some e →
      (copyChildren fail base ((n, t) :: rest) dest).msgs =
        (copyDirRec fail (base ++ [n]) n t dest).msgs) := by
  constructor
  · intro fail base ch dest n t hmem
    induction ch generalizing dest with
    | nil => cases hmem
    | cons hd rest ih =>
      unfold restoreChildren
      rcases List.mem_cons.mp hmem with heq | hmem'
      · subst heq
        exact List.mem_append_left _ (restoring_msg_mem fail (base ++ [n]) t n dest)
      · exact List.mem_append_right _ (ih _ hmem')
  · intro fail base n t rest dest e h
    simp only [copyChildren]
    simp only [h]

/-- Witness for `c4_sibling_behavior_amended` at concrete inputs. -/
theorem c4_sibling_behavior_amended_witness :
    ("Restoring: " ++ "b") ∈ (restoreChildren (fun p => p == ["a"]) []
        [("a", FsTree.file [1]), ("b", FsTree.file [2])] []).msgs ∧
    (copyChildren (fun p => p == ["c"]) []
        [("c", FsTree.file [3]), ("d", FsTree.file [4])] []).msgs =
      (copyDirRec (fun p => p == ["c"]) ([] ++ ["c"]) "c" (FsTree.file [3]) []).msgs :=
  ⟨c4_sibling_behavior_amended.1 (fun p => p == ["a"]) []
      [("a", FsTree.file [1]), ("b", FsTree.file [2])] [] "b" (FsTree.file [2])
      (List.mem_cons_of_mem _ (List.mem_cons_self _ _)),
    c4_sibling_behavior_amended.2 (fun p => p == ["c"]) [] "c" (FsTree.file [3])
      [("d", FsTree.file [4])] [] copyFailErr rfl⟩

/-- C5: an import whose sanitized top-level name collides with an existing
vault-root entry fails with the destination-collision error and performs
no mutation: the vault children, the metadata store, and the original tree
are untouched. -/
theorem c5_collision_no_mutation :
    ∀ uri name srcCh vaultCh meta fail,
      (lookupChild vaultCh (sanitize name)).isSome = true →
      (importOp uri name srcCh vaultCh meta fail true).err =
          some (collisionErr (sanitize name)) ∧
      (importOp uri name srcCh vaultCh meta fail true).vault = vaultCh ∧
      (importOp uri name srcCh vaultCh meta fail true).meta = meta ∧
      (importOp uri name srcCh vaultCh meta fail true).deletedOriginal = false := by
  intro uri name srcCh vaultCh meta fail h
  simp only [importOp]
  rw [if_pos (show (sanitize name == "" ||
    (lookupChild vaultCh (sanitize name)).isSome) = true by simp [h])]
  exact ⟨rfl, rfl, rfl, rfl⟩

/-- Witness for `c5_collision_no_mutation` at a concrete collision. -/
theorem c5_collision_no_mutation_witness :
    (importOp "u" "Photos" [("x", FsTree.file [])] [("Photos", FsTree.dir [])] []
        (fun _ => false) true).err = some (collisionErr "Photos") ∧
    (importOp "u" "Photos" [("x", FsTree.file [])] [("Photos", FsTree.dir [])] []
        (fun _ => false) true).vault = [("Photos", FsTree.dir [])] ∧
    (importOp "u" "Photos" [("x", FsTree.file [])] [("Photos", FsTree.dir [])] []
        (fun _ => false) true).meta = [] ∧
    (importOp "u" "Photos" [("x", FsTree.file [])] [("Photos", FsTree.dir [])] []
        (fun _ => false) true).deletedOriginal = false :=
  c5_collision_no_mutation "u" "Photos" [("x", FsTree.file [])]
    [("Photos", FsTree.dir [])] [] (fun _ => false) rfl

/-! ### Round trip: import followed by restore (C2) -/

/-- The plain names of a children list. -/
def namesOf (ch : List (String × FsTree)) : List String := ch.map Prod.fst

mutual

/-- Plain-name well-formedness of a tree: at every level the children
names are pairwise distinct (true of every tree listed from a real file
system). -/
def WFuniqT : FsTree → Bool
  | .file _ => true
  | .dir ch => WFuniqCh ch

/-- `WFuniqT` on a children list. -/
def WFuniqCh : List (String × FsTree) → Bool
  | [] => true
  | (n, t) :: rest => !(decide (n ∈ namesOf rest)) && WFuniqT t && WFuniqCh rest

end

theorem lookupChild_append_of_none {l : List (String × FsTree)} {n : String}
    (h : lookupChild l n = none) (l2 : List (String × FsTree)) :
    lookupChild (l ++ l2) n = lookupChild l2 n := by
  induction l with
  | nil => rfl
  | cons hd rest ih =>
    obtain ⟨m, u⟩ := hd
    simp only [lookupChild] at h
    by_cases hm : m = n
    · rw [if_pos hm] at h; cases h
    · rw [if_neg hm] at h
      simp only [List.cons_append, lookupChild, if_neg hm]
      exact ih h

theorem setChild_of_none {l : List (String × FsTree)} {n : String}
    (h : lookupChild l n = none) (v : FsTree) : setChild l n v = l ++ [(n, v)] := by
  induction l with
  | nil => rfl
  | cons hd rest ih =>
    obtain ⟨m, u⟩ := hd
    simp only [lookupChild] at h
    by_cases hm : m = n
    · rw [if_pos hm] at h; cases h
    · rw [if_neg hm] at h
      simp only [setChild, if_neg hm, List.cons_append]
      rw [ih h]

theorem lookupChild_setChild_self (l : List (String × FsTree)) (n : String)
    (v : FsTree) : lookupChild (setChild l n v) n = some v := by
  induction l with
  | nil => simp [setChild, lookupChild]
  | cons hd rest ih =>
    obtain ⟨m, u⟩ := hd
    by_cases hm : m = n
    · simp [setChild, if_pos hm, lookupChild]
    · simp only [setChild, if_neg hm, lookupChild]
      exact ih

theorem lookupChild_singleton_ne {s n : String} (h : s ≠ n) (v : FsTree) :
    lookupChild [(s, v)] n = none := by
  simp [lookupChild, h]

theorem lookupMeta_setMeta_self (m : List (String × MetaRec)) (k : String)
    (v : MetaRec) : lookupMeta (setMeta m k v) k = some v := by
  induction m with
  | nil => simp [setMeta, lookupMeta]
  | cons hd rest ih =>
    obtain ⟨a, b⟩ := hd
    by_cases ha : a = k
    · simp [setMeta, if_pos ha, lookupMeta]
    · simp only [setMeta, if_neg ha, lookupMeta]
      exact ih

theorem lookupMeta_removeMeta_self (m : List (String × MetaRec)) (k : String) :
    lookupMeta (removeMeta m k) k = none := by
  induction m with
  | nil => rfl
  | cons hd rest ih =>
    obtain ⟨a, b⟩ := hd
    by_cases ha : (a == k) = true
    · simpa [removeMeta, List.filter_cons, ha] using ih
    · have ha' : a ≠ k := by simpa using ha
      simpa [removeMeta, List.filter_cons, ha, lookupMeta, ha'] using ih

/-- A restore copy pass with no platform failures over a tree with
distinct sibling names reproduces the tree exactly after the destination's
existing entries, with zero caught failures. -/
theorem restoreChildren_clean (fail : List String → Bool) (hf : ∀ p, fail p = false) :
    ∀ (k : Nat) (ch : List (String × FsTree)) (base : List String)
      (dest : List (String × FsTree)), sizeOf ch ≤ k →
      WFuniqCh ch = true →
      (∀ s ∈ namesOf ch, lookupChild dest s = none) →
      (restoreChildren fail base ch dest).fails = 0 ∧
      (restoreChildren fail base ch dest).dest = dest ++ ch := by
  intro k
  induction k with
  | zero =>
    intro ch base dest hsz
    exfalso
    cases ch <;> simp at hsz
  | succ k ih =>
    intro ch base dest hsz hwf hfresh
    match ch with
    | [] => simp [restoreChildren]
    | (n, t) :: rest =>
      simp only [WFuniqCh, Bool.and_eq_true] at hwf
      obtain ⟨⟨hdist, hwft⟩, hwfrest⟩ := hwf
      have hszrest : sizeOf rest ≤ k := by
        simp only [List.cons.sizeOf_spec, Prod.mk.sizeOf_spec] at hsz
        omega
      have hnmem : n ∈ namesOf ((n, t) :: rest) := by simp [namesOf]
      have hfrn : lookupChild dest n = none := hfresh n hnmem
      have hdist' : ∀ x ∈ namesOf rest, n ≠ x := by
        intro x hx he
        subst he
        simp [hx] at hdist
      have hfresh2 : ∀ (s' : String), s' ∈ namesOf rest →
          lookupChild (dest ++ [(n, t)]) s' = none := by
        intro s' hs'
        rw [lookupChild_append_of_none (hfresh s'
          (by simp only [namesOf, List.map_cons]
              exact List.mem_cons_of_mem _ hs')) _]
        exact lookupChild_singleton_ne (hdist' s' hs') t
      have hset := setChild_of_none hfrn t
      cases t with
      | file c =>
        have hstep : copyToSAFRec fail (base ++ [n]) (FsTree.file c) n dest =
            ⟨["Restoring: " ++ n, "Restored file: " ++ n],
              setChild dest n (FsTree.file c), 0⟩ := by
          simp [copyToSAFRec, hf (base ++ [n])]
        have hrec := ih rest base (dest ++ [(n, FsTree.file c)]) hszrest hwfrest hfresh2
        simp only [restoreChildren, hstep, hset]
        refine ⟨by simpa using hrec.1, ?_⟩
        rw [hrec.2]
        simp [List.append_assoc, List.singleton_append]
      | dir ch2 =>
        have hszch : sizeOf ch2 ≤ k := by
          simp only [List.cons.sizeOf_spec, Prod.mk.sizeOf_spec,
            FsTree.dir.sizeOf_spec] at hsz
          omega
        have hwfch : WFuniqCh ch2 = true := by simpa [WFuniqT] using hwft
        have hinner := ih ch2 (base ++ [n]) [] hszch hwfch (by intro s' hs'; rfl)
        have hstep : copyToSAFRec fail (base ++ [n]) (FsTree.dir ch2) n dest =
            ⟨("Restoring: " ++ n) :: ("Created/Verified directory: " ++ n) ::
                (restoreChildren fail (base ++ [n]) ch2 []).msgs,
              setChild dest n
                (FsTree.dir (restoreChildren fail (base ++ [n]) ch2 []).dest),
              (restoreChildren fail (base ++ [n]) ch2 []).fails⟩ := by
          simp [copyToSAFRec, hf (base ++ [n]), hfrn]
        rw [hinner.1, hinner.2] at hstep
        simp only [List.nil_append] at hstep
        have hrec := ih rest base (dest ++ [(n, FsTree.dir ch2)]) hszrest hwfrest hfresh2
        simp only [restoreChildren, hstep, hset]
        refine ⟨by simpa using hrec.1, ?_⟩
        rw [hrec.2]
        simp [List.append_assoc, List.singleton_append]

/-- A restore copy of a whole well-formed directory into a destination
parent where its name is fresh: the parent gains exactly that directory,
with zero caught failures. -/
theorem copyToSAFRec_clean (fail : List String → Bool) (hf : ∀ p, fail p = false)
    (p : List String) (ch : List (String × FsTree)) (name : String)
    (dest : List (String × FsTree)) (hwf : WFuniqCh ch = true)
    (hfresh : lookupChild dest name = none) :
    (copyToSAFRec fail p (FsTree.dir ch) name dest).fails = 0 ∧
    (copyToSAFRec fail p (FsTree.dir ch) name dest).dest =
      dest ++ [(name, FsTree.dir ch)] := by
  have hrc := restoreChildren_clean fail hf (sizeOf ch) ch p [] le_rfl hwf
    (by intro s hs; rfl)
  have hstep : copyToSAFRec fail p (FsTree.dir ch) name dest =
      ⟨("Restoring: " ++ name) :: ("Created/Verified directory: " ++ name) ::
          (restoreChildren fail p ch []).msgs,
        setChild dest name (FsTree.dir (restoreChildren fail p ch []).dest),
        (restoreChildren fail p ch []).fails⟩ := by
    simp [copyToSAFRec, hf p, hfresh]
  rw [hrc.1, hrc.2] at hstep
  simp only [List.nil_append] at hstep
  rw [hstep, setChild_of_none hfresh]
  exact ⟨rfl, rfl⟩


theorem mem_namesOf_setChild {x n : String} {v : FsTree} :
    ∀ {l : List (String × FsTree)}, x ∈ namesOf (setChild l n v) →
      x ∈ namesOf l ∨ x = n := by
  intro l
  induction l with
  | nil =>
    intro h
    simp only [setChild, namesOf, List.map_cons, List.map_nil,
      List.mem_singleton] at h
    exact Or.inr h
  | cons hd rest ih =>
    obtain ⟨m, u⟩ := hd
    intro h
    by_cases hm : m = n
    · simp only [setChild, if_pos hm, namesOf, List.map_cons, List.mem_cons] at h
      rcases h with h | h
      · exact Or.inr h
      · exact Or.inl (by simp only [namesOf, List.map_cons, List.mem_cons]; exact Or.inr h)
    · simp only [setChild, if_neg hm, namesOf, List.map_cons, List.mem_cons] at h
      rcases h with h | h
      · exact Or.inl (by simp only [namesOf, List.map_cons, List.mem_cons]; exact Or.inl h)
      · rcases ih h with h' | h'
        · exact Or.inl (by
            simp only [namesOf, List.map_cons, List.mem_cons]
            simp only [namesOf] at h'
            exact Or.inr h')
        · exact Or.inr h'

/-- A `setChild` write keeps the children names pairwise distinct: this is
the file-system invariant — creating or overwriting a named entry never
introduces a duplicate name, whatever the source names that produced the
writes were. -/
theorem WFuniqCh_setChild {l : List (String × FsTree)} {n : String} {v : FsTree}
    (hl : WFuniqCh l = true) (hv : WFuniqT v = true) :
    WFuniqCh (setChild l n v) = true := by
  induction l with
  | nil =>
    simp [setChild, WFuniqCh, namesOf, hv]
  | cons hd rest ih =>
    obtain ⟨m, u⟩ := hd
    simp only [WFuniqCh, Bool.and_eq_true] at hl
    obtain ⟨⟨hm, hu⟩, hrest⟩ := hl
    by_cases hmn : m = n
    · subst hmn
      simp only [setChild, if_pos rfl, WFuniqCh, Bool.and_eq_true]
      exact ⟨⟨hm, hv⟩, hrest⟩
    · simp only [setChild, if_neg hmn, WFuniqCh, Bool.and_eq_true]
      refine ⟨⟨?_, hu⟩, ih hrest⟩
      simp only [Bool.not_eq_eq_eq_not, Bool.not_true, decide_eq_false_iff_not]
      intro hmem
      rcases mem_namesOf_setChild hmem with h' | h'
      · simp [h'] at hm
      · exact hmn h'

theorem WFuniqT_of_lookupChild {l : List (String × FsTree)} {n : String}
    {t : FsTree} (h : lookupChild l n = some t) (hl : WFuniqCh l = true) :
    WFuniqT t = true := by
  induction l with
  | nil => cases h
  | cons hd rest ih =>
    obtain ⟨m, u⟩ := hd
    simp only [WFuniqCh, Bool.and_eq_true] at hl
    obtain ⟨⟨_, hu⟩, hrest⟩ := hl
    simp only [lookupChild] at h
    by_cases hm : m = n
    · rw [if_pos hm] at h
      cases h
      exact hu
    · rw [if_neg hm] at h
      exact ih h hrest

/-- The import copy pass preserves plain-name well-formedness of the
destination, for every run — also runs with failures, skips, or source
siblings whose sanitized names collide — because every destination write
goes through `setChild`. -/
theorem copyChildren_WFuniq (fail : List String → Bool) :
    ∀ (k : Nat) (entries : List (String × FsTree)) (base : List String)
      (dest : List (String × FsTree)), sizeOf entries ≤ k →
      WFuniqCh dest = true →
      WFuniqCh (copyChildren fail base entries dest).dest = true := by
  intro k
  induction k with
  | zero =>
    intro entries base dest hsz
    exfalso
    cases entries <;> simp at hsz
  | succ k ih =>
    intro entries base dest hsz hwd
    match entries with
    | [] => simpa [copyChildren] using hwd
    | (n, t) :: rest =>
      have hszrest : sizeOf rest ≤ k := by
        simp only [List.cons.sizeOf_spec, Prod.mk.sizeOf_spec] at hsz
        omega
      cases hsan : sanitizeOpt n with
      | none =>
        have hstep : copyDirRec fail (base ++ [n]) n t dest =
            ⟨["Skipped: " ++ n], dest, none⟩ := by
          simp [copyDirRec, hsan]
        simp only [copyChildren, hstep]
        exact ih rest base dest hszrest hwd
      | some s =>
        cases t with
        | file c =>
          by_cases hfp : fail (base ++ [n]) = true
          · have hstep : copyDirRec fail (base ++ [n]) n (FsTree.file c) dest =
                ⟨["Processing: " ++ s, "Copying file: " ++ s], dest,
                  some copyFailErr⟩ := by
              simp [copyDirRec, hsan, hfp]
            simp only [copyChildren, hstep]
            exact hwd
          · have hstep : copyDirRec fail (base ++ [n]) n (FsTree.file c) dest =
                ⟨["Processing: " ++ s, "Copying file: " ++ s],
                  setChild dest s (FsTree.file c), none⟩ := by
              simp [copyDirRec, hsan, hfp]
            simp only [copyChildren, hstep]
            exact ih rest base _ hszrest (WFuniqCh_setChild hwd rfl)
        | dir ch =>
          have hszch : sizeOf ch ≤ k := by
            simp only [List.cons.sizeOf_spec, Prod.mk.sizeOf_spec,
              FsTree.dir.sizeOf_spec] at hsz
            omega
          cases hlk : lookupChild dest s with
          | some u =>
            cases u with
            | file c0 =>
              have hstep : copyDirRec fail (base ++ [n]) n (FsTree.dir ch) dest =
                  ⟨["Processing: " ++ s, "Creating directory: " ++ s], dest,
                    some mkdirFailErr⟩ := by
                simp [copyDirRec, hsan, hlk]
              simp only [copyChildren, hstep]
              exact hwd
            | dir ch0 =>
              have hch0 : WFuniqCh ch0 = true := by
                simpa [WFuniqT] using WFuniqT_of_lookupChild hlk hwd
              have hinner := ih ch (base ++ [n]) ch0 hszch hch0
              have hstep : copyDirRec fail (base ++ [n]) n (FsTree.dir ch) dest =
                  ⟨("Processing: " ++ s) :: ("Creating directory: " ++ s) ::
                      (copyChildren fail (base ++ [n]) ch ch0).msgs,
                    setChild dest s
                      (FsTree.dir (copyChildren fail (base ++ [n]) ch ch0).dest),
                    (copyChildren fail (base ++ [n]) ch ch0).err⟩ := by
                simp [copyDirRec, hsan, hlk]
              have hset : WFuniqCh (setChild dest s
                  (FsTree.dir (copyChildren fail (base ++ [n]) ch ch0).dest)) = true :=
                WFuniqCh_setChild hwd (by simpa [WFuniqT] using hinner)
              cases herr : (copyChildren fail (base ++ [n]) ch ch0).err with
              | some e =>
                simp only [copyChildren, hstep, herr]
                exact hset
              | none =>
                simp only [copyChildren, hstep, herr]
                exact ih rest base _ hszrest hset
          | none =>
            have hinner := ih ch (base ++ [n]) [] hszch rfl
            have hstep : copyDirRec fail (base ++ [n]) n (FsTree.dir ch) dest =
                ⟨("Processing: " ++ s) :: ("Creating directory: " ++ s) ::
                    (copyChildren fail (base ++ [n]) ch []).msgs,
                  setChild dest s
                    (FsTree.dir (copyChildren fail (base ++ [n]) ch []).dest),
                  (copyChildren fail (base ++ [n]) ch []).err⟩ := by
              simp [copyDirRec, hsan, hlk]
            have hset : WFuniqCh (setChild dest s
                (FsTree.dir (copyChildren fail (base ++ [n]) ch []).dest)) = true :=
              WFuniqCh_setChild hwd (by simpa [WFuniqT] using hinner)
            cases herr : (copyChildren fail (base ++ [n]) ch []).err with
            | some e =>
              simp only [copyChildren, hstep, herr]
              exact hset
            | none =>
              simp only [copyChildren, hstep, herr]
              exact ih rest base _ hszrest hset

/-- C2: for every folder whose import completes successfully (the
orchestrator run ends without an exception — the claim's own premise),
immediately restoring that folder with the grant targeting the original
parent (where the original no longer exists) and no restore-side platform
failures recreates a top-level folder named with the original unsanitized
display name at the granted location, whose tree — in particular every
file's content — is identical to the vault copy, and removes the
corresponding metadata record from the store.  No assumption is made about
the source's names: siblings whose sanitized names collide are allowed,
since the vault copy the import leaves behind always has distinct child
names (`copyChildren_WFuniq`). -/
theorem c2_import_then_restore :
    ∀ (uri name : String) (srcCh vaultCh : List (String × FsTree))
      (meta : List (String × MetaRec)) (failI failR : List String → Bool)
      (destP : List (String × FsTree)),
      (importOp uri name srcCh vaultCh meta failI true).err = none →
      (∀ p, failR p = false) →
      lookupChild destP name = none →
      ∃ T,
        lookupChild (importOp uri name srcCh vaultCh meta failI true).vault
            (sanitize name) = some T ∧
        lookupChild (restoreOp
            (importOp uri name srcCh vaultCh meta failI true).vault
            (importOp uri name srcCh vaultCh meta failI true).meta
            (sanitize name) destP failR true).dest name = some T ∧
        (restoreOp (importOp uri name srcCh vaultCh meta failI true).vault
            (importOp uri name srcCh vaultCh meta failI true).meta
            (sanitize name) destP failR true).fails = 0 ∧
        lookupMeta (restoreOp (importOp uri name srcCh vaultCh meta failI true).vault
            (importOp uri name srcCh vaultCh meta failI true).meta
            (sanitize name) destP failR true).meta (sanitize name) = none := by
  intro uri name srcCh vaultCh meta failI failR destP herr hfR hdfresh
  by_cases hcol : (sanitize name == "" ||
      (lookupChild vaultCh (sanitize name)).isSome) = true
  · exfalso
    simp only [importOp] at herr
    rw [if_pos hcol] at herr
    simp at herr
  · cases hce : (copyChildren failI [] srcCh []).err with
    | some e =>
      exfalso
      simp only [importOp] at herr
      rw [if_neg hcol] at herr
      simp only [hce] at herr
      simp at herr
    | none =>
      have hvvault : (importOp uri name srcCh vaultCh meta failI true).vault =
          setChild vaultCh (sanitize name)
            (FsTree.dir (copyChildren failI [] srcCh []).dest) := by
        simp only [importOp]
        rw [if_neg hcol]
        simp only [hce]
      have hvmeta : (importOp uri name srcCh vaultCh meta failI true).meta =
          setMeta meta (sanitize name) ⟨uri, name⟩ := by
        simp only [importOp]
        rw [if_neg hcol]
        simp only [hce]
      have huniq : WFuniqCh (copyChildren failI [] srcCh []).dest = true :=
        copyChildren_WFuniq failI (sizeOf srcCh) srcCh [] [] le_rfl rfl
      have hlm : lookupMeta (setMeta meta (sanitize name) ⟨uri, name⟩)
          (sanitize name) = some ⟨uri, name⟩ := lookupMeta_setMeta_self _ _ _
      have hlv : lookupChild (setChild vaultCh (sanitize name)
            (FsTree.dir (copyChildren failI [] srcCh []).dest)) (sanitize name) =
          some (FsTree.dir (copyChildren failI [] srcCh []).dest) :=
        lookupChild_setChild_self _ _ _
      have hsafe := copyToSAFRec_clean failR hfR [sanitize name]
        (copyChildren failI [] srcCh []).dest name destP huniq hdfresh
      have hrdest : (restoreOp (setChild vaultCh (sanitize name)
            (FsTree.dir (copyChildren failI [] srcCh []).dest))
            (setMeta meta (sanitize name) ⟨uri, name⟩)
            (sanitize name) destP failR true).dest =
          destP ++ [(name, FsTree.dir (copyChildren failI [] srcCh []).dest)] := by
        simp only [restoreOp, hlm, hlv]
        exact hsafe.2
      have hrfails : (restoreOp (setChild vaultCh (sanitize name)
            (FsTree.dir (copyChildren failI [] srcCh []).dest))
            (setMeta meta (sanitize name) ⟨uri, name⟩)
            (sanitize name) destP failR true).fails = 0 := by
        simp only [restoreOp, hlm, hlv]
        exact hsafe.1
      have hrmeta : (restoreOp (setChild vaultCh (sanitize name)
            (FsTree.dir (copyChildren failI [] srcCh []).dest))
            (setMeta meta (sanitize name) ⟨uri, name⟩)
            (sanitize name) destP failR true).meta =
          removeMeta (setMeta meta (sanitize name) ⟨uri, name⟩) (sanitize name) := by
        simp only [restoreOp, hlm, hlv]
      refine ⟨FsTree.dir (copyChildren failI [] srcCh []).dest, ?_, ?_, ?_, ?_⟩
      · rw [hvvault]
        exact hlv
      · rw [hvvault, hvmeta, hrdest]
        rw [lookupChild_append_of_none hdfresh]
        simp [lookupChild]
      · rw [hvvault, hvmeta, hrfails]
      · rw [hvvault, hvmeta, hrmeta]
        exact lookupMeta_removeMeta_self _ _

/-- Witness for `c2_import_then_restore` at a source whose two sibling
files `a:b` and `a_b` sanitize to the same vault name (the later write
overwrites the earlier, the import still completes successfully), imported
into an empty vault and restored to an empty granted parent. -/
theorem c2_import_then_restore_witness :
    ∃ T,
      lookupChild (importOp "content://u/Photos" "Photos"
          [("a:b", FsTree.file [1]), ("a_b", FsTree.file [2])]
          [] [] (fun _ => false) true).vault (sanitize "Photos") = some T ∧
      lookupChild (restoreOp
          (importOp "content://u/Photos" "Photos"
            [("a:b", FsTree.file [1]), ("a_b", FsTree.file [2])]
            [] [] (fun _ => false) true).vault
          (importOp "content://u/Photos" "Photos"
            [("a:b", FsTree.file [1]), ("a_b", FsTree.file [2])]
            [] [] (fun _ => false) true).meta
          (sanitize "Photos") [] (fun _ => false) true).dest "Photos" = some T ∧
      (restoreOp
          (importOp "content://u/Photos" "Photos"
            [("a:b", FsTree.file [1]), ("a_b", FsTree.file [2])]
            [] [] (fun _ => false) true).vault
          (importOp "content://u/Photos" "Photos"
            [("a:b", FsTree.file [1]), ("a_b", FsTree.file [2])]
            [] [] (fun _ => false) true).meta
          (sanitize "Photos") [] (fun _ => false) true).fails = 0 ∧
      lookupMeta (restoreOp
          (importOp "content://u/Photos" "Photos"
            [("a:b", FsTree.file [1]), ("a_b", FsTree.file [2])]
            [] [] (fun _ => false) true).vault
          (importOp "content://u/Photos" "Photos"
            [("a:b", FsTree.file [1]), ("a_b", FsTree.file [2])]
            [] [] (fun _ => false) true).meta
          (sanitize "Photos") [] (fun _ => false) true).meta (sanitize "Photos") = none :=
  c2_import_then_restore "content://u/Photos" "Photos"
    [("a:b", FsTree.file [1]), ("a_b", FsTree.file [2])]
    [] [] (fun _ => false) (fun _ => false) []
    rfl (fun _ => rfl) rfl
